import Mathlib

/-!
Verification development for the standup orchestration engine of the
scrummaster repository (`src/src/VoiceScrumMaster.tsx`).

Text is modelled as `List Char` (`Str`).  The pure insight extractor
`extractInsights`, the per-speaker timer, the silence monitor condition,
the session state machine around `handleAnswerFinalize` /
`moveToNextPerson`, and the summary builder `buildMeetingSummary` are
shallowly embedded below, following the source line by line.
-/

set_option maxHeartbeats 2000000

namespace VSM

/-- Text is modelled as a list of characters. -/
abbrev Str := List Char

/-- Embed a Lean string literal into the model's text type. -/
def str (s : String) : Str := s.data

/-- The apostrophe character (U+0027), used by several source patterns. -/
def apos : Char := Char.ofNat 39

/-- Whitespace class of JavaScript's regex `\s` (the characters relevant
to this code base: ASCII whitespace plus NBSP). -/
def jsWhitespace (c : Char) : Bool :=
  c = ' ' || c = Char.ofNat 9 || c = Char.ofNat 10 || c = Char.ofNat 11 ||
  c = Char.ofNat 12 || c = Char.ofNat 13 || c = Char.ofNat 160

/-- Auxiliary for `normalizeWS`: `inRun` records whether the previous
character belonged to a whitespace run (already emitted as one space). -/
def normalizeWSGo (inRun : Bool) : Str → Str
  | [] => []
  | c :: cs =>
    if jsWhitespace c then
      if inRun then normalizeWSGo true cs else ' ' :: normalizeWSGo true cs
    else c :: normalizeWSGo false cs

/-- `text.replace(/\s+/g, " ")`: collapse each maximal whitespace run
into a single space. -/
def normalizeWS (l : Str) : Str := normalizeWSGo false l

/-- Remove trailing whitespace. -/
def dropTrailingWS (l : Str) : Str :=
  (l.reverse.dropWhile jsWhitespace).reverse

/-- JavaScript `String.prototype.trim`. -/
def trimChars (l : Str) : Str :=
  dropTrailingWS (l.dropWhile jsWhitespace)

/-- `s.toLowerCase()` for the ASCII texts this program manipulates. -/
def lowerStr (l : Str) : Str := l.map Char.toLower

/-- Sentence-ending characters used by the `split(/[.!?]/)` in
`extractInsights`. -/
def sentEnder (c : Char) : Bool := c = '.' || c = '!' || c = '?'

/-- The sentence list of `extractInsights`: normalize whitespace, split
on `.`, `!`, `?`, trim, discard empties. -/
def sentencesOf (text : Str) : List Str :=
  (((normalizeWS text).splitOnP sentEnder).map trimChars).filter
    (fun s => !s.isEmpty)

/-- Does `pat` occur as a contiguous substring of the text?  (A regex
alternation of plain literals, as in the blocker test.) -/
def containsSeq (pat : Str) : Str → Bool
  | [] => pat.isEmpty
  | c :: cs => pat.isPrefixOf (c :: cs) || containsSeq pat cs

/-- The blocker token alternatives of
`/(blocked|blocker|waiting on|waiting for|cannot|can't)/`. -/
def blockerPats : List Str :=
  [str "blocked", str "blocker", str "waiting on", str "waiting for",
   str "cannot", str "can" ++ [apos] ++ str "t"]

/-- `/(blocked|blocker|waiting on|waiting for|cannot|can't)/.test(sLower)`. -/
def blockerMatch (sLower : Str) : Bool :=
  blockerPats.any (fun p => containsSeq p sLower)

/-- Word characters of regex `\w` (`[A-Za-z0-9_]`). -/
def isWordChar (c : Char) : Bool :=
  ('a' ≤ c && c ≤ 'z') || ('A' ≤ c && c ≤ 'Z') || ('0' ≤ c && c ≤ '9') || c = '_'

/-- The future-intent phrases of the task regex. -/
def taskPhrases : List Str :=
  [str "i will", str "i" ++ [apos] ++ str "m going to", str "i plan to",
   str "today i will", str "today i plan to", str "i" ++ [apos] ++ str "ll"]

/-- Does `pat` match at the head of `l`, with a word boundary after it?
(All task phrases end in a word character, so `\b` there demands the
next character, if any, be a non-word character.) -/
def phraseAtHead (pat l : Str) : Bool :=
  pat.isPrefixOf l &&
    (match l.drop pat.length with
     | [] => true
     | d :: _ => !isWordChar d)

/-- Scan for a task phrase with `\b` on both sides; `prevIsWord` tells
whether the character before the current position is a word character. -/
def taskMatchFrom (prevIsWord : Bool) : Str → Bool
  | [] => false
  | c :: cs =>
    (!prevIsWord && taskPhrases.any (fun p => phraseAtHead p (c :: cs))) ||
      taskMatchFrom (isWordChar c) cs

/-- `/\b(i will|i'm going to|i plan to|today i will|today i plan to|i'll)\b/.test(sLower)`. -/
def taskMatch (sLower : Str) : Bool := taskMatchFrom false sLower

/-- Case-insensitive literal match at the head of `l`; returns the
matched slice (in original case) and the rest.  `pat` is lowercase. -/
def matchFixedCI (pat l : Str) : Option (Str × Str) :=
  let t := l.take pat.length
  if t.length = pat.length && lowerStr t = pat then some (t, l.drop pat.length)
  else none

/-- Match exactly `n` digits at the head of `l`. -/
def matchDigits (n : Nat) (l : Str) : Option (Str × Str) :=
  let t := l.take n
  if t.length = n && t.all Char.isDigit then some (t, l.drop n) else none

/-- Match the `\d{4}-\d{2}-\d{2}` alternative. -/
def matchISO (l : Str) : Option Str :=
  match matchDigits 4 l with
  | none => none
  | some (a, r1) =>
    match r1 with
    | [] => none
    | c :: r2 =>
      if c = '-' then
        match matchDigits 2 r2 with
        | none => none
        | some (b, r3) =>
          match r3 with
          | [] => none
          | d :: r4 =>
            if d = '-' then
              match matchDigits 2 r4 with
              | none => none
              | some (e, _) => some (a ++ ['-'] ++ b ++ ['-'] ++ e)
            else none
      else none

/-- The fixed word alternatives of the due-date group, in regex order. -/
def duePats : List Str :=
  [str "monday", str "tuesday", str "wednesday", str "thursday",
   str "friday", str "saturday", str "sunday", str "tomorrow", str "today"]

/-- First `some` in a list of options. -/
def firstSome {α : Type} : List (Option α) → Option α
  | [] => none
  | some a :: _ => some a
  | none :: rest => firstSome rest

/-- Match group 2 of the due-date regex at the head of `l`, returning
the matched slice. -/
def matchDueGroup (l : Str) : Option Str :=
  match firstSome (duePats.map (fun p => (matchFixedCI p l).map Prod.fst)) with
  | some t => some t
  | none =>
    match matchISO l with
    | some t => some t
    | none => (matchFixedCI (str "eod") l).map Prod.fst

/-- Try the whole due-date regex anchored at the head of `l`:
`(by|before)` then `\s+` then the group-2 alternatives. -/
def dueAtHead (l : Str) : Option Str :=
  let tryKw : Str → Option Str := fun kw =>
    match matchFixedCI kw l with
    | none => none
    | some (_, rest) =>
      if (rest.takeWhile jsWhitespace).isEmpty then none
      else matchDueGroup (rest.dropWhile jsWhitespace)
  match tryKw (str "by") with
  | some t => some t
  | none => tryKw (str "before")

/-- Leftmost match of the due-date regex: group 2's slice. -/
def dueScan : Str → Option Str
  | [] => none
  | c :: cs =>
    match dueAtHead (c :: cs) with
    | some t => some t
    | none => dueScan cs

/-- The `due` value stored by `extractInsights`: the group-2 slice of
the first due-date match, upper-cased. -/
def dueOf (s : Str) : Option Str := (dueScan s).map (fun t => t.map Char.toUpper)

/-- `Task{owner, title, due?}` as produced by `extractInsights`. -/
structure Task where
  owner : Str
  title : Str
  due : Option Str
deriving DecidableEq

/-- `Blocker{owner, issue}` as produced by `extractInsights`. -/
structure Blocker where
  owner : Str
  issue : Str
deriving DecidableEq

/-- The three output collections of `extractInsights`. -/
structure Insights where
  tasks : List Task
  blockers : List Blocker
  notes : List Str
deriving DecidableEq

/-- One loop iteration of `extractInsights`: blocker test first, then
task test, else note (first match wins). -/
def classifyAcc (owner : Str) (acc : Insights) (s : Str) : Insights :=
  if blockerMatch (lowerStr s) then
    { acc with blockers := acc.blockers ++ [⟨owner, trimChars s⟩] }
  else if taskMatch (lowerStr s) then
    { acc with tasks := acc.tasks ++ [⟨owner, trimChars s, dueOf s⟩] }
  else
    { acc with notes := acc.notes ++ [trimChars s] }

/-- `extractInsights(text, owner)` from `VoiceScrumMaster.tsx`. -/
def extractInsights (text owner : Str) : Insights :=
  (sentencesOf text).foldl (classifyAcc owner) ⟨[], [], []⟩

/-- Classified as blocker? -/
def isBlockerSent (s : Str) : Bool := blockerMatch (lowerStr s)

/-- Classified as task (not a blocker, matches a task phrase)? -/
def isTaskSent (s : Str) : Bool := !blockerMatch (lowerStr s) && taskMatch (lowerStr s)

/-- Classified as note (neither blocker nor task)? -/
def isNoteSent (s : Str) : Bool := !blockerMatch (lowerStr s) && !taskMatch (lowerStr s)


/-- A team member: `{ id, name, timeLimit }` (seconds). -/
structure Member where
  id : Str
  name : Str
  timeLimit : Nat
deriving DecidableEq

/-- Per-member response record `QA = { update, transcript, elapsedSec }`. -/
structure QA where
  update : Str
  transcript : List Str
  elapsedSec : Nat
deriving DecidableEq

/-- The orchestration state of the `VoiceScrumMaster` component (the
fields the standup flow reads and writes). -/
structure St where
  team : List Member
  active : Bool
  idx : Nat
  completedMembers : List Str
  buffer : Str
  finalBuffer : Str
  qaMap : List (Str × QA)
  timeLimitReached : Bool
  perSpeakerTimer : Nat
  timerStarted : Bool
  timerRunning : Bool
deriving DecidableEq

/-- The qaMap initialization effect: one empty record per member. -/
def initQaMap (team : List Member) : List (Str × QA) :=
  team.map (fun m => (m.id, ⟨[], [], 0⟩))

/-- `qaMap[id]` on the association-list model of the record. -/
def qaLookup (m : List (Str × QA)) (id : Str) : Option QA :=
  match m with
  | [] => none
  | (k, q) :: rest => if k = id then some q else qaLookup rest id

/-- Functional update of `qaMap[id]`. -/
def qaUpdate : List (Str × QA) → Str → (QA → QA) → List (Str × QA)
  | [], _, _ => []
  | (k, q) :: rest, id, f =>
    (if k = id then (k, f q) else (k, q)) :: qaUpdate rest id f

/-- `new Set([...old, x])`: insertion-ordered set insert. -/
def setInsert (l : List Str) (x : Str) : List Str :=
  if x ∈ l then l else l ++ [x]

/-- `team.findIndex(member => !completed.has(member.id))`, as an
`Option Nat` (JS returns `-1` when absent). -/
def nextUncompleted (completed : List Str) : List Member → Option Nat
  | [] => none
  | m :: rest =>
    if m.id ∈ completed then (nextUncompleted completed rest).map (· + 1)
    else some 0

/-- The sentinel answer recorded on an empty, time-limit-forced finalize. -/
def sentinelAnswer : Str := str "No response (time limit reached)"

/-- The clarification prompt spoken on an empty finalize without
time-limit cause. -/
def clarifyPrompt : Str :=
  str "I didn" ++ [apos] ++
    str "t catch that. Could you please repeat your answer, or say " ++
    [apos] ++ str "done" ++ [apos] ++ str " to move to the next person?"

/-- The fixed acknowledgment `Thanks, <name>.` spoken on finalize. -/
def ackLine (name : Str) : Str := str "Thanks, " ++ name ++ str "."

/-- The extra line spoken when the answer contains "done"/"skip". -/
def moveOnLine (name : Str) : Str :=
  str "Thank you, " ++ name ++ str ". Let" ++ [apos] ++
    str "s move on to the next person."

/-- The closing remark of `completeMeeting`. -/
def closingLine : Str := str "Thanks everyone! Standup complete."

/-- The per-member question prompt of `askCurrent`. -/
def promptLine (name : Str) : Str := name ++ str ", please give your update."

/-- Name of `team[i]` (empty when out of range), for prompt text. -/
def memberNameAt (team : List Member) (i : Nat) : Str :=
  match team.get? i with
  | some m => m.name
  | none => []

/-- `(finalBuffer + " " + buffer).trim()`. -/
def combinedBuf (st : St) : Str :=
  trimChars (st.finalBuffer ++ str " " ++ st.buffer)

/-- `resetTimerState()`: clear interval, zero the counter, clear flags. -/
def resetTimerState (st : St) : St :=
  { st with perSpeakerTimer := 0, timeLimitReached := false,
            timerStarted := false, timerRunning := false }

/-- `startMemberTimer(member)`: reset then arm the per-speaker interval. -/
def startMemberTimer (st : St) : St :=
  { resetTimerState st with timerStarted := true, timerRunning := true }

/-- One firing of the per-speaker interval armed for member `m`:
increment, and on reaching the limit set `timeLimitReached`, clear the
interval (the grace-period finalize is a separate, delayed call). -/
def timerTick (st : St) (m : Member) : St :=
  if st.timerRunning then
    if m.timeLimit ≤ st.perSpeakerTimer + 1 then
      { st with perSpeakerTimer := st.perSpeakerTimer + 1,
                timeLimitReached := true, timerRunning := false }
    else { st with perSpeakerTimer := st.perSpeakerTimer + 1 }
  else st

/-- `n` consecutive interval firings. -/
def tickN (m : Member) : Nat → St → St
  | 0, st => st
  | n + 1, st => timerTick (tickN m n st) m

/-- The body condition of the silence auto-advance interval:
`!manualMode && listening && silenceMs > 4000 && (buffer.trim() or
finalBuffer.trim() non-empty)`. -/
def silenceFires (manualMode listening : Bool) (now lastChunkAt : Nat)
    (buffer finalBuffer : Str) : Bool :=
  !manualMode && listening && decide (4000 < now - lastChunkAt) &&
    (!(trimChars buffer).isEmpty || !(trimChars finalBuffer).isEmpty)

/-- `completeMeeting()`: stop, clear the timer, deactivate. -/
def completeMeeting (st : St) : St :=
  { resetTimerState st with active := false }

/-- State-and-speech of `askCurrent` / `askCurrentWithCompletedMembers`:
find the first uncompleted member, point `idx` at them, clear buffers,
reset the timer, speak the prompt; if none is left, complete the
meeting. -/
def askStep (st : St) : St × List Str :=
  match nextUncompleted st.completedMembers st.team with
  | none => (completeMeeting st, [closingLine])
  | some i =>
    (resetTimerState { st with idx := i, buffer := [], finalBuffer := [] },
     [promptLine (memberNameAt st.team i)])

/-- `moveToNextPerson(completedId)`: mark the member completed, then
advance to the next uncompleted member or complete the meeting. -/
def moveToNextPerson (st : St) (completedId : Str) : St × List Str :=
  let st1 : St := { st with completedMembers := setInsert st.completedMembers completedId }
  match nextUncompleted st1.completedMembers st1.team with
  | some i => askStep { st1 with idx := i, buffer := [], finalBuffer := [] }
  | none => (completeMeeting st1, [closingLine])

/-- The record-updating part of `handleAnswerFinalize`: append the
timestamped transcript line, store elapsed seconds, reset the timer,
store the frozen answer (sentinel if empty). -/
def finalizeRecord (st : St) (m : Member) (ts : Str) : St :=
  let full := combinedBuf st
  let answer := if full = [] then sentinelAnswer else full
  let tline := str "[" ++ ts ++ str "] " ++ m.name ++ str ": " ++ answer
  let qa1 := qaUpdate st.qaMap m.id (fun q => { q with transcript := q.transcript ++ [tline] })
  let qa2 := qaUpdate qa1 m.id (fun q => { q with elapsedSec := st.perSpeakerTimer })
  let qa3 := qaUpdate qa2 m.id (fun q => { q with update := answer })
  resetTimerState { st with qaMap := qa3 }

/-- `handleAnswerFinalize()`: stop ASR, clear the interval; on an empty
buffer without time-limit cause speak a clarification and return;
otherwise freeze the answer, record it, acknowledge, and move on. -/
def handleAnswerFinalize (st : St) (ts : Str) : St × List Str :=
  match st.team.get? st.idx with
  | none => ({ st with timerRunning := false }, [])
  | some m =>
    let full := combinedBuf st
    if full = [] ∧ st.timeLimitReached = false then
      ({ st with timerRunning := false }, [clarifyPrompt])
    else
      let ackExtra : List Str :=
        if (st.timeLimitReached = false ∧ containsSeq (str "done") (lowerStr full) = true) ∨
            containsSeq (str "skip") (lowerStr full) = true
        then [moveOnLine m.name] else []
      let st2 := finalizeRecord { st with timerRunning := false } m ts
      let next := moveToNextPerson st2 m.id
      (next.1, ackExtra ++ [ackLine m.name] ++ next.2)

/-- The component's initial state before any session. -/
def initialSt (team : List Member) (qa : List (Str × QA)) : St :=
  { team := team, active := false, idx := 0, completedMembers := [],
    buffer := [], finalBuffer := [], qaMap := qa, timeLimitReached := false,
    perSpeakerTimer := 0, timerStarted := false, timerRunning := false }

/-- `kickoff()` (state part): activate, reset index, completed set and
buffers; the roster and qaMap carry over. -/
def kickoff (st : St) : St :=
  { st with active := true, idx := 0, completedMembers := [],
            buffer := [], finalBuffer := [] }

/-- `kickoff()` followed by the `askCurrent()` it awaits. -/
def kickoffAsked (st : St) : St := (askStep (kickoff st)).1

/-- A manual turn: the operator types `txt` (the manual input box binds
`finalBuffer`) and presses Done, which calls `handleAnswerFinalize`. -/
def manualTurn (ts txt : Str) (st : St) : St :=
  (handleAnswerFinalize { st with finalBuffer := txt, buffer := [] } ts).1

/-- A whole session of manual turns. -/
def runTurns (ts : Str) (answers : List Str) (st : St) : St :=
  answers.foldl (fun s a => manualTurn ts a s) st

/-- The state at the start of member `k`'s turn in a clean manual
session: first `k` members completed, buffers empty, timer reset. -/
def turnState (team : List Member) (k : Nat) (qa : List (Str × QA)) : St :=
  { team := team, active := true, idx := k,
    completedMembers := (team.take k).map Member.id,
    buffer := [], finalBuffer := [], qaMap := qa, timeLimitReached := false,
    perSpeakerTimer := 0, timerStarted := false, timerRunning := false }

/-- A turn-scoped external event: an interval tick, an ASR fragment, or
the operator clearing the buffers. -/
inductive TurnEv where
  | tick : TurnEv
  | frag (txt : Str) (isFinal : Bool) : TurnEv
  | clear : TurnEv
deriving DecidableEq

/-- The `onText` fragment handler of `askCurrent`: stamp the buffers and
arm the per-speaker timer on the first non-empty fragment. -/
def fragStep (txt : Str) (isFinal : Bool) (st : St) : St :=
  let st1 :=
    if isFinal then { st with finalBuffer := trimChars (st.finalBuffer ++ str " " ++ txt) }
    else { st with buffer := txt }
  if (trimChars txt).isEmpty = false ∧ st.timerStarted = false ∧ st.timerRunning = false then
    startMemberTimer st1
  else st1

/-- Dispatch one turn event (timer ticks are keyed to the member whose
closure armed the interval). -/
def turnStep (m : Member) (e : TurnEv) (st : St) : St :=
  match e with
  | TurnEv.tick => timerTick st m
  | TurnEv.frag txt f => fragStep txt f st
  | TurnEv.clear => { st with buffer := [], finalBuffer := [] }

/-- Fold a list of turn events over a state. -/
def turnRun (m : Member) (evs : List TurnEv) (st : St) : St :=
  evs.foldl (fun s e => turnStep m e s) st

/-- Modelled from the spec: the acknowledgment §4.1 asks the controller
to select during Finalizing — surface the first detected blocker, else
the first detected task, else a generic "noted".  (The source has no
such selection; this definition exists to state claim C6 against.) -/
def specAckSentence (answer owner : Str) : Str :=
  match (extractInsights answer owner).blockers with
  | b :: _ => b.issue
  | [] =>
    match (extractInsights answer owner).tasks with
    | t :: _ => t.title
    | [] => str "noted"

/-- One participant entry of `buildMeetingSummary`. -/
structure Participant where
  name : Str
  elapsedSec : Nat
  update : Str
  transcript : List Str
  actions : List Task
  blockers : List Blocker
  notes : List Str
deriving DecidableEq

/-- The summary object of `buildMeetingSummary`. -/
structure Summary where
  id : Str
  startedAt : Str
  finishedAt : Str
  participants : List Participant
  actions : List Task
  blockers : List Blocker
deriving DecidableEq

/-- `buildMeetingSummary()`: re-run `extractInsights` per member on the
stored answer, flatten actions and blockers, stamp `id` with a fresh
uuid and `finishedAt` with the current time (both passed here as
explicit inputs `freshId`, `nowStr`). -/
def buildMeetingSummary (team : List Member) (qaMap : List (Str × QA))
    (meetingStartedAt : Option Str) (freshId nowStr : Str) : Summary :=
  let participants : List Participant := team.map (fun m =>
    let qa := qaLookup qaMap m.id
    let upd : Str := match qa with | some q => q.update | none => []
    let insights := extractInsights upd m.name
    { name := m.name
      elapsedSec := match qa with | some q => q.elapsedSec | none => 0
      update := upd
      transcript := match qa with | some q => q.transcript | none => []
      actions := insights.tasks
      blockers := insights.blockers
      notes := insights.notes })
  let flatActions := participants.flatMap (fun p => p.actions.map (fun a => { a with owner := p.name }))
  let flatBlockers := participants.flatMap (fun p => p.blockers.map (fun b => { b with owner := p.name }))
  { id := freshId
    startedAt := match meetingStartedAt with | some s => s | none => nowStr
    finishedAt := nowStr
    participants := participants
    actions := flatActions
    blockers := flatBlockers }

/-- Two-member roster used by concrete witnesses. -/
def teamW : List Member := [⟨str "a", str "Ann", 60⟩, ⟨str "b", str "Ben", 60⟩]

/-- One-member roster with a 2-second limit, for timer witnesses. -/
def mA : Member := ⟨str "a", str "Ann", 2⟩

/-- The roster containing only `mA`. -/
def teamA : List Member := [mA]

/-- A freshly asked turn for `teamA` in which the member never speaks. -/
def stSilent : St := turnState teamA 0 (initQaMap teamA)

/-- A turn for `teamA` whose typed answer contains a blocker. -/
def stBlocked : St :=
  { turnState teamA 0 (initQaMap teamA) with
      finalBuffer := str "It is blocked by the database" }

/-- A new session on `teamW` whose first member has spoken one final
fragment — the state a stale grace-period callback would fire into. -/
def stNewSession : St :=
  fragStep (str "partial answer") true
    (kickoffAsked (initialSt teamW (initQaMap teamW)))

lemma foldl_classifyAcc (owner : Str) : ∀ (l : List Str) (acc : Insights),
    l.foldl (classifyAcc owner) acc =
      ⟨acc.tasks ++ (l.filter isTaskSent).map (fun s => ⟨owner, trimChars s, dueOf s⟩),
       acc.blockers ++ (l.filter isBlockerSent).map (fun s => ⟨owner, trimChars s⟩),
       acc.notes ++ (l.filter isNoteSent).map trimChars⟩ := by
  intro l
  induction l with
  | nil => intro acc; simp
  | cons s t ih =>
    intro acc
    by_cases hb : blockerMatch (lowerStr s) = true
    · simp only [List.foldl_cons, classifyAcc, hb, if_true, ih,
        List.filter_cons, isBlockerSent, isTaskSent, isNoteSent, Bool.not_true,
        Bool.false_and, Bool.and_false]
      simp [hb, List.append_assoc]
    · by_cases ht : taskMatch (lowerStr s) = true
      · simp only [List.foldl_cons, classifyAcc, hb, ht, if_true, if_false, ih,
          List.filter_cons, isBlockerSent, isTaskSent, isNoteSent]
        simp [hb, ht, List.append_assoc]
      · simp only [List.foldl_cons, classifyAcc, hb, ht, if_false, ih,
          List.filter_cons, isBlockerSent, isTaskSent, isNoteSent]
        simp [hb, ht, List.append_assoc]

lemma three_filter_length : ∀ l : List Str,
    (l.filter isTaskSent).length + (l.filter isBlockerSent).length +
      (l.filter isNoteSent).length = l.length := by
  intro l
  induction l with
  | nil => simp
  | cons s t ih =>
    by_cases hb : blockerMatch (lowerStr s) = true <;>
      by_cases ht : taskMatch (lowerStr s) = true <;>
      · simp [List.filter_cons, isBlockerSent, isTaskSent, isNoteSent, hb, ht]
        omega

/-- C1: `extractInsights` splits the normalized text into sentences on
`.`, `!`, `?`, discards empty fragments, and assigns each remaining
sentence to exactly one of blockers, tasks, notes by first-match
priority Blocker over Task over Note; the categories partition the
sentence list (order preserved, none dropped, sizes sum to the
sentence count). -/
theorem extractInsights_partition (text owner : Str) :
    (extractInsights text owner).blockers =
      ((sentencesOf text).filter isBlockerSent).map (fun s => ⟨owner, trimChars s⟩) ∧
    (extractInsights text owner).tasks =
      ((sentencesOf text).filter isTaskSent).map (fun s => ⟨owner, trimChars s, dueOf s⟩) ∧
    (extractInsights text owner).notes =
      ((sentencesOf text).filter isNoteSent).map trimChars ∧
    (extractInsights text owner).tasks.length + (extractInsights text owner).blockers.length +
      (extractInsights text owner).notes.length = (sentencesOf text).length ∧
    (∀ s : Str,
      (isBlockerSent s = true ∧ isTaskSent s = false ∧ isNoteSent s = false) ∨
      (isBlockerSent s = false ∧ isTaskSent s = true ∧ isNoteSent s = false) ∨
      (isBlockerSent s = false ∧ isTaskSent s = false ∧ isNoteSent s = true)) := by
  have h := foldl_classifyAcc owner (sentencesOf text) ⟨[], [], []⟩
  have hx : extractInsights text owner =
      ⟨((sentencesOf text).filter isTaskSent).map (fun s => ⟨owner, trimChars s, dueOf s⟩),
       ((sentencesOf text).filter isBlockerSent).map (fun s => ⟨owner, trimChars s⟩),
       ((sentencesOf text).filter isNoteSent).map trimChars⟩ := by
    simpa [extractInsights] using h
  refine ⟨by simp [hx], by simp [hx], by simp [hx], ?_, ?_⟩
  · simp only [hx, List.length_map]
    exact three_filter_length (sentencesOf text)
  · intro s
    by_cases hb : blockerMatch (lowerStr s) = true <;>
      by_cases ht : taskMatch (lowerStr s) = true <;>
      simp [isBlockerSent, isTaskSent, isNoteSent, hb, ht]

/-- C9: on `"I will push the login fix by Friday."` with owner
`"Alice"`, `extractInsights` returns exactly one task, whose `due`
field is the upper-cased matched token `"FRIDAY"`, and no blockers. -/
theorem extractInsights_friday_example :
    (extractInsights (str "I will push the login fix by Friday.") (str "Alice")).tasks =
      [⟨str "Alice", str "I will push the login fix by Friday", some (str "FRIDAY")⟩] ∧
    (extractInsights (str "I will push the login fix by Friday.") (str "Alice")).blockers = [] := by
  constructor <;> rfl


/-- C5 counterexample: two `buildMeetingSummary` calls with identical
team, qaMap and meeting start differ structurally, because each call
stamps a freshly generated `id` and a new `finishedAt`. -/
theorem buildMeetingSummary_not_identical :
    buildMeetingSummary teamA (initQaMap teamA) (some (str "T0")) (str "id1") (str "now1") ≠
      buildMeetingSummary teamA (initQaMap teamA) (some (str "T0")) (str "id2") (str "now2") := by
  decide

/-- C5 (amended): with team, qaMap and meetingStartedAt unchanged, two
`buildMeetingSummary` calls agree on participants, flattened actions
and blockers, and (once the meeting has started) on `startedAt`; only
the per-call fresh `id` and `finishedAt` can differ. -/
theorem buildMeetingSummary_deterministic (team : List Member)
    (qaMap : List (Str × QA)) (s : Option Str) (x id1 now1 id2 now2 : Str) :
    (buildMeetingSummary team qaMap s id1 now1).participants =
      (buildMeetingSummary team qaMap s id2 now2).participants ∧
    (buildMeetingSummary team qaMap s id1 now1).actions =
      (buildMeetingSummary team qaMap s id2 now2).actions ∧
    (buildMeetingSummary team qaMap s id1 now1).blockers =
      (buildMeetingSummary team qaMap s id2 now2).blockers ∧
    (buildMeetingSummary team qaMap (some x) id1 now1).startedAt =
      (buildMeetingSummary team qaMap (some x) id2 now2).startedAt := by
  refine ⟨rfl, rfl, rfl, rfl⟩

/-- C7 counterexample: all three conditions named by the claim hold
(elapsed `4001 > 4000` ms, non-empty working buffer, manual mode off),
yet the silence trigger does not fire, because the code additionally
requires the speech channel to be actively `listening`. -/
theorem silence_not_fire_without_listening :
    silenceFires false false 4001 0 (str "hi") [] = false ∧
    4000 < 4001 - 0 ∧ trimChars (str "hi") ≠ [] := by
  refine ⟨by decide, by decide, by decide⟩

/-- C7 (amended): the silence auto-advance condition holds exactly when
the channel is actively listening, more than 4000 ms have elapsed since
the last fragment, the working buffer (partial or finalized) is
non-empty, and manual-input mode is off; in particular it never holds
in manual-input mode. -/
theorem silenceFires_characterization :
    (∀ (manualMode listening : Bool) (now lastChunkAt : Nat) (buf fbuf : Str),
      silenceFires manualMode listening now lastChunkAt buf fbuf = true ↔
        (manualMode = false ∧ listening = true ∧ 4000 < now - lastChunkAt ∧
          (trimChars buf ≠ [] ∨ trimChars fbuf ≠ []))) ∧
    (∀ (listening : Bool) (now lastChunkAt : Nat) (buf fbuf : Str),
      silenceFires true listening now lastChunkAt buf fbuf = false) := by
  constructor
  · intro manualMode listening now lastChunkAt buf fbuf
    cases manualMode <;> cases listening <;>
      simp [silenceFires, List.isEmpty_iff]
  · intro listening now lastChunkAt buf fbuf
    simp [silenceFires]

/-- C8: the source has no session/turn token.  A grace-period finalize
scheduled in an earlier session and still pending when `kickoff` starts
a new session runs `handleAnswerFinalize` against the new session's
state unchecked: here it prematurely finalizes the new session's first
member with their partial buffer and advances the turn, instead of
being detected and discarded. -/
theorem staleCallback_corrupts_new_session :
    stNewSession.completedMembers = [] ∧
    (qaLookup stNewSession.qaMap (str "a")).map QA.update = some [] ∧
    ((handleAnswerFinalize stNewSession (str "t")).1).completedMembers = [str "a"] ∧
    ((qaLookup ((handleAnswerFinalize stNewSession (str "t")).1).qaMap (str "a")).map
        QA.update) = some (str "partial answer") ∧
    ((handleAnswerFinalize stNewSession (str "t")).1).idx = 1 := by
  refine ⟨by decide, by decide, by decide, by decide, by decide⟩


/-- C6 counterexample: a finalized answer containing a blocker.  The
extractor detects the blocker, yet the spoken acknowledgment is the
fixed `Thanks, <name>.` — no spoken line surfaces the first detected
blocker (the source never runs `extractInsights` during finalize). -/
theorem ack_ignores_blocker :
    (extractInsights (combinedBuf stBlocked) (str "Ann")).blockers ≠ [] ∧
    specAckSentence (combinedBuf stBlocked) (str "Ann") = str "It is blocked by the database" ∧
    (handleAnswerFinalize stBlocked (str "t")).2 = [ackLine (str "Ann"), closingLine] ∧
    ((handleAnswerFinalize stBlocked (str "t")).2).all
        (fun line => !containsSeq (specAckSentence (combinedBuf stBlocked) (str "Ann")) line)
      = true := by
  refine ⟨by decide, by decide, by decide, by decide⟩

/-- C6 (amended): during Finalizing of every non-empty (or
time-limit-forced) answer, the controller speaks the fixed
acknowledgment `Thanks, <name>.`; the acknowledgment is independent of
the answer's insights. -/
theorem finalize_ack_fixed (st : St) (ts : Str) (m : Member)
    (hm : st.team.get? st.idx = some m)
    (hp : ¬(combinedBuf st = [] ∧ st.timeLimitReached = false)) :
    ackLine m.name ∈ (handleAnswerFinalize st ts).2 := by
  simp only [handleAnswerFinalize, hm]
  rw [if_neg hp]
  simp

/-- Witness for `finalize_ack_fixed` at a concrete finalized answer. -/
theorem finalize_ack_fixed_witness :
    stBlocked.team.get? stBlocked.idx = some mA ∧
    ¬(combinedBuf stBlocked = [] ∧ stBlocked.timeLimitReached = false) ∧
    ackLine mA.name ∈ (handleAnswerFinalize stBlocked (str "t")).2 :=
  ⟨by decide, by decide, finalize_ack_fixed stBlocked (str "t") mA (by decide) (by decide)⟩


lemma timerTick_not_running (st : St) (m : Member) (h : st.timerRunning = false) :
    timerTick st m = st := by
  simp [timerTick, h]

lemma tickN_start_fields (st : St) (m : Member) (hlim : 1 ≤ m.timeLimit) :
    ∀ k, k ≤ m.timeLimit →
      tickN m k (startMemberTimer st) =
        { st with perSpeakerTimer := k, timeLimitReached := decide (k = m.timeLimit),
                  timerStarted := true, timerRunning := decide (k < m.timeLimit) } := by
  intro k
  induction k with
  | zero =>
    intro _
    have h1 : decide (0 = m.timeLimit) = false := by
      rw [decide_eq_false_iff_not]; omega
    have h2 : decide (0 < m.timeLimit) = true := by
      rw [decide_eq_true_eq]; omega
    simp [tickN, startMemberTimer, resetTimerState, h1, h2]
  | succ k ih =>
    intro hk
    have hk' : k ≤ m.timeLimit := Nat.le_of_succ_le hk
    have hklt : k < m.timeLimit := hk
    have hrun : decide (k < m.timeLimit) = true := by
      rw [decide_eq_true_eq]; omega
    rw [show tickN m (k + 1) (startMemberTimer st) =
          timerTick (tickN m k (startMemberTimer st)) m from rfl,
        ih hk']
    by_cases hlast : k + 1 = m.timeLimit
    · have e1 : decide (k + 1 = m.timeLimit) = true := by
        rw [decide_eq_true_eq]; omega
      have e2 : decide (k + 1 < m.timeLimit) = false := by
        rw [decide_eq_false_iff_not]; omega
      simp [timerTick, hrun, e1, e2, Nat.le_of_eq hlast.symm]
    · have hlt : k + 1 < m.timeLimit := by omega
      have e1 : decide (k + 1 = m.timeLimit) = false := by
        rw [decide_eq_false_iff_not]; omega
      have e2 : decide (k + 1 < m.timeLimit) = true := by
        rw [decide_eq_true_eq]; omega
      have e3 : ¬(m.timeLimit ≤ k + 1) := by omega
      have hne : decide (k = m.timeLimit) = false := by
        rw [decide_eq_false_iff_not]; omega
      simp [timerTick, hrun, e1, e2, e3, hne]

lemma qaLookup_qaUpdate_self (l : List (Str × QA)) (id : Str) (f : QA → QA) :
    qaLookup (qaUpdate l id f) id = (qaLookup l id).map f := by
  induction l with
  | nil => rfl
  | cons p rest ih =>
    obtain ⟨k, q⟩ := p
    simp only [qaUpdate] at ih ⊢
    by_cases h : k = id
    · subst h
      rw [if_pos rfl]
      simp [qaLookup]
    · rw [if_neg h]
      simp [qaLookup, h, ih]

lemma qaLookup_qaUpdate_ne (l : List (Str × QA)) (id id2 : Str) (f : QA → QA)
    (h : id2 ≠ id) :
    qaLookup (qaUpdate l id f) id2 = qaLookup l id2 := by
  induction l with
  | nil => rfl
  | cons p rest ih =>
    obtain ⟨k, q⟩ := p
    simp only [qaUpdate] at ih ⊢
    by_cases hk : k = id
    · subst hk
      have hne : ¬(k = id2) := fun hx => h (hx.symm)
      rw [if_pos rfl]
      simp [qaLookup, hne, ih]
    · rw [if_neg hk]
      by_cases hk2 : k = id2 <;> simp [qaLookup, hk2, ih]

lemma finalizeRecord_lookup (st : St) (m : Member) (ts : Str) :
    qaLookup (finalizeRecord st m ts).qaMap m.id =
      (qaLookup st.qaMap m.id).map (fun q =>
        ⟨(if combinedBuf st = [] then sentinelAnswer else combinedBuf st),
         q.transcript ++ [str "[" ++ ts ++ str "] " ++ m.name ++ str ": " ++
           (if combinedBuf st = [] then sentinelAnswer else combinedBuf st)],
         st.perSpeakerTimer⟩) := by
  simp only [finalizeRecord, resetTimerState]
  rw [qaLookup_qaUpdate_self, qaLookup_qaUpdate_self, qaLookup_qaUpdate_self]
  cases hq : qaLookup st.qaMap m.id <;> simp

lemma finalizeRecord_completed (st : St) (m : Member) (ts : Str) :
    (finalizeRecord st m ts).completedMembers = st.completedMembers := rfl

lemma askStep_fst_qaMap (s : St) : ((askStep s).1).qaMap = s.qaMap := by
  unfold askStep
  rcases h : nextUncompleted s.completedMembers s.team with _ | i <;>
    simp [h, completeMeeting, resetTimerState]

lemma askStep_fst_completed (s : St) :
    ((askStep s).1).completedMembers = s.completedMembers := by
  unfold askStep
  rcases h : nextUncompleted s.completedMembers s.team with _ | i <;>
    simp [h, completeMeeting, resetTimerState]

lemma moveToNext_fst_qaMap (s : St) (id : Str) :
    ((moveToNextPerson s id).1).qaMap = s.qaMap := by
  unfold moveToNextPerson
  rcases h : nextUncompleted (setInsert s.completedMembers id) s.team with _ | i <;>
    simp [h, askStep_fst_qaMap, completeMeeting, resetTimerState]

lemma moveToNext_fst_completed (s : St) (id : Str) :
    ((moveToNextPerson s id).1).completedMembers = setInsert s.completedMembers id := by
  unfold moveToNextPerson
  rcases h : nextUncompleted (setInsert s.completedMembers id) s.team with _ | i <;>
    simp [h, askStep_fst_completed, completeMeeting, resetTimerState]

lemma mem_setInsert_self (l : List Str) (x : Str) : x ∈ setInsert l x := by
  by_cases h : x ∈ l <;> simp [setInsert, h]

lemma subset_setInsert (l : List Str) (x : Str) : l ⊆ setInsert l x := by
  by_cases h : x ∈ l <;> simp [setInsert, h]

lemma finalize_clarify_eq (st : St) (ts : Str) (m : Member)
    (hm : st.team.get? st.idx = some m)
    (he : combinedBuf st = []) (ht : st.timeLimitReached = false) :
    handleAnswerFinalize st ts = ({ st with timerRunning := false }, [clarifyPrompt]) := by
  simp only [handleAnswerFinalize, hm]
  rw [if_pos ⟨he, ht⟩]

lemma finalize_proceed_fst (st : St) (ts : Str) (m : Member)
    (hm : st.team.get? st.idx = some m)
    (hp : ¬(combinedBuf st = [] ∧ st.timeLimitReached = false)) :
    (handleAnswerFinalize st ts).1 =
      (moveToNextPerson (finalizeRecord { st with timerRunning := false } m ts) m.id).1 := by
  simp only [handleAnswerFinalize, hm]
  rw [if_neg hp]

lemma combinedBuf_timerRunning (st : St) :
    combinedBuf { st with timerRunning := false } = combinedBuf st := rfl


lemma combinedBuf_empty (s : St) (h1 : s.buffer = []) (h2 : s.finalBuffer = []) :
    combinedBuf s = [] := by
  simp only [combinedBuf, h1, h2]
  rfl

lemma turnStep_preserves (m : Member) (e : TurnEv) (st : St) :
    (turnStep m e st).team = st.team ∧ (turnStep m e st).idx = st.idx ∧
    (turnStep m e st).qaMap = st.qaMap ∧
    (turnStep m e st).completedMembers = st.completedMembers ∧
    (turnStep m e st).active = st.active := by
  cases e with
  | tick =>
    simp only [turnStep, timerTick]
    split_ifs <;> simp
  | frag txt f =>
    simp only [turnStep, fragStep, startMemberTimer, resetTimerState]
    split_ifs <;> simp
  | clear => simp [turnStep]

lemma turnStep_timer_inv (m : Member) (e : TurnEv) (st : St) (hlim : 1 ≤ m.timeLimit)
    (h1 : st.perSpeakerTimer ≤ m.timeLimit)
    (h2 : st.timerRunning = true → st.perSpeakerTimer < m.timeLimit) :
    (turnStep m e st).perSpeakerTimer ≤ m.timeLimit ∧
    ((turnStep m e st).timerRunning = true →
      (turnStep m e st).perSpeakerTimer < m.timeLimit) := by
  cases e with
  | tick =>
    simp only [turnStep, timerTick]
    split_ifs with ha hb
    · have := h2 ha
      simp
      omega
    · have := h2 ha
      simp
      omega
    · exact ⟨h1, h2⟩
  | frag txt f =>
    simp only [turnStep, fragStep, startMemberTimer, resetTimerState]
    split_ifs
    · exact ⟨Nat.zero_le _, fun _ => hlim⟩
    · exact ⟨Nat.zero_le _, fun _ => hlim⟩
    · exact ⟨h1, h2⟩
    · exact ⟨h1, h2⟩
  | clear =>
    exact ⟨h1, h2⟩

lemma turnRun_inv (m : Member) (hlim : 1 ≤ m.timeLimit) :
    ∀ (evs : List TurnEv) (st : St),
      st.perSpeakerTimer ≤ m.timeLimit →
      (st.timerRunning = true → st.perSpeakerTimer < m.timeLimit) →
      (turnRun m evs st).perSpeakerTimer ≤ m.timeLimit ∧
      ((turnRun m evs st).timerRunning = true →
        (turnRun m evs st).perSpeakerTimer < m.timeLimit) ∧
      (turnRun m evs st).team = st.team ∧ (turnRun m evs st).idx = st.idx ∧
      (turnRun m evs st).qaMap = st.qaMap := by
  intro evs
  induction evs with
  | nil =>
    intro st h1 h2
    exact ⟨h1, h2, rfl, rfl, rfl⟩
  | cons e evs ih =>
    intro st h1 h2
    have hrun : turnRun m (e :: evs) st = turnRun m evs (turnStep m e st) := rfl
    obtain ⟨p1, p2⟩ := turnStep_timer_inv m e st hlim h1 h2
    obtain ⟨q1, q2, q3, q4, q5⟩ := turnStep_preserves m e st
    obtain ⟨r1, r2, r3, r4, r5⟩ := ih (turnStep m e st) p1 p2
    rw [hrun]
    exact ⟨r1, r2, by rw [r3, q1], by rw [r4, q2], by rw [r5, q3]⟩

/-- C10: the per-speaker timer never counts past the member's
configured `timeLimit` (it stops at the limit), and whatever elapsed
value finalize then stores as `elapsedSec` is bounded by `timeLimit` —
over any sequence of turn events (ticks, fragments, clears) starting
from a freshly asked turn. -/
theorem elapsed_le_timeLimit (st : St) (m : Member) (evs : List TurnEv) (ts : Str) (q0 : QA)
    (hlim : 1 ≤ m.timeLimit)
    (hm : st.team.get? st.idx = some m)
    (ht0 : st.perSpeakerTimer = 0)
    (hr0 : st.timerRunning = false)
    (hq0 : qaLookup st.qaMap m.id = some q0)
    (hq0e : q0.elapsedSec ≤ m.timeLimit) :
    (turnRun m evs st).perSpeakerTimer ≤ m.timeLimit ∧
    (∀ q, qaLookup ((handleAnswerFinalize (turnRun m evs st) ts).1).qaMap m.id = some q →
      q.elapsedSec ≤ m.timeLimit) := by
  obtain ⟨hA, _, hteam, hidx, hqa⟩ :=
    turnRun_inv m hlim evs st (by omega) (by rw [hr0]; intro h; cases h)
  have hmfin : (turnRun m evs st).team.get? (turnRun m evs st).idx = some m := by
    rw [hteam, hidx]; exact hm
  refine ⟨hA, ?_⟩
  intro q hq
  by_cases hcl : combinedBuf (turnRun m evs st) = [] ∧ (turnRun m evs st).timeLimitReached = false
  · rw [finalize_clarify_eq (turnRun m evs st) ts m hmfin hcl.1 hcl.2] at hq
    have hq' : qaLookup (turnRun m evs st).qaMap m.id = some q := hq
    rw [hqa, hq0] at hq'
    cases hq'
    exact hq0e
  · rw [finalize_proceed_fst (turnRun m evs st) ts m hmfin hcl] at hq
    rw [moveToNext_fst_qaMap] at hq
    rw [finalizeRecord_lookup] at hq
    simp only [combinedBuf_timerRunning] at hq
    have hl : qaLookup { turnRun m evs st with timerRunning := false }.qaMap m.id = some q0 := by
      have h := hq0
      rw [← hqa] at h
      exact h
    rw [hl] at hq
    rw [Option.map_some'] at hq
    cases hq
    simpa using hA

/-- Witness for `elapsed_le_timeLimit` on a concrete over-long turn. -/
theorem elapsed_le_timeLimit_witness :
    (1 ≤ mA.timeLimit) ∧ (qaLookup stSilent.qaMap mA.id = some ⟨[], [], 0⟩) ∧
    (turnRun mA [TurnEv.frag (str "hi") false, TurnEv.tick, TurnEv.tick,
        TurnEv.tick, TurnEv.tick] stSilent).perSpeakerTimer ≤ mA.timeLimit :=
  ⟨by decide, by decide,
   (elapsed_le_timeLimit stSilent mA
      [TurnEv.frag (str "hi") false, TurnEv.tick, TurnEv.tick, TurnEv.tick, TurnEv.tick]
      (str "t") ⟨[], [], 0⟩ (by decide) (by decide) (by decide) (by decide)
      (by decide) (by decide)).1⟩


/-- C4 counterexample: a turn whose buffer stays empty for the whole
turn.  The per-speaker timer is armed only by the first non-empty
fragment, so it is never started: ten interval firings (well past
`timeLimit 2 + 1s grace`) leave the state untouched, the silence
trigger cannot fire on an empty buffer even after an arbitrarily long
wait, and the turn never force-finalizes or advances. -/
theorem silent_turn_never_advances :
    stSilent.buffer = [] ∧ stSilent.finalBuffer = [] ∧
    stSilent.timerStarted = false ∧ stSilent.timerRunning = false ∧
    tickN mA 10 stSilent = stSilent ∧
    silenceFires false true 1000000 0 stSilent.buffer stSilent.finalBuffer = false ∧
    stSilent.active = true ∧ stSilent.completedMembers = [] := by
  refine ⟨by decide, by decide, by decide, by decide, by decide, by decide,
    by decide, by decide⟩

lemma finalize_empty_tl (s : St) (ts : Str) (m : Member) (q0 : QA)
    (hm : s.team.get? s.idx = some m)
    (hcb : combinedBuf s = [])
    (htl : s.timeLimitReached = true)
    (hq0 : qaLookup s.qaMap m.id = some q0) :
    ((qaLookup ((handleAnswerFinalize s ts).1).qaMap m.id).map QA.update
        = some sentinelAnswer) ∧
    m.id ∈ ((handleAnswerFinalize s ts).1).completedMembers := by
  have hp : ¬(combinedBuf s = [] ∧ s.timeLimitReached = false) := by
    intro hx
    rw [htl] at hx
    cases hx.2
  constructor
  · rw [finalize_proceed_fst s ts m hm hp, moveToNext_fst_qaMap, finalizeRecord_lookup]
    have hl : qaLookup ({ s with timerRunning := false } : St).qaMap m.id = some q0 := hq0
    rw [hl, Option.map_some', Option.map_some']
    have hcb2 : combinedBuf ({ s with timerRunning := false } : St) = [] := by
      rw [combinedBuf_timerRunning]
      exact hcb
    rw [hcb2]
    simp
  · rw [finalize_proceed_fst s ts m hm hp, moveToNext_fst_completed, finalizeRecord_completed]
    exact mem_setInsert_self _ _

/-- C4 (amended): once the member's first non-empty fragment arms the
timer, a turn whose buffer is empty at expiry force-finalizes with the
sentinel answer and advances: `timeLimitReached` becomes true at
exactly `timeLimit` one-second ticks (never earlier), the interval
stops, and the delayed grace-period finalize records the sentinel and
marks the member complete — a wait bounded by `timeLimit` seconds plus
the 1-second grace.  (If no non-empty fragment ever arrives the timer
is never armed and no auto-advance happens at all.) -/
theorem armed_timer_force_finalize (st : St) (m : Member) (ts : Str) (q0 : QA)
    (hm : st.team.get? st.idx = some m) (hlim : 1 ≤ m.timeLimit)
    (hb : st.buffer = []) (hfb : st.finalBuffer = [])
    (hq0 : qaLookup st.qaMap m.id = some q0) :
    (∀ k, k < m.timeLimit →
      (tickN m k (startMemberTimer st)).timeLimitReached = false) ∧
    (tickN m m.timeLimit (startMemberTimer st)).timeLimitReached = true ∧
    (tickN m m.timeLimit (startMemberTimer st)).timerRunning = false ∧
    (tickN m m.timeLimit (startMemberTimer st)).perSpeakerTimer = m.timeLimit ∧
    ((qaLookup ((handleAnswerFinalize (tickN m m.timeLimit (startMemberTimer st)) ts).1).qaMap
        m.id).map QA.update = some sentinelAnswer) ∧
    m.id ∈ ((handleAnswerFinalize (tickN m m.timeLimit (startMemberTimer st))
      ts).1).completedMembers := by
  have hE := tickN_start_fields st m hlim m.timeLimit (Nat.le_refl _)
  have e1 : decide (m.timeLimit = m.timeLimit) = true := by
    rw [decide_eq_true_eq]
  have e2 : decide (m.timeLimit < m.timeLimit) = false := by
    rw [decide_eq_false_iff_not]; omega
  rw [e1, e2] at hE
  have hmE : (tickN m m.timeLimit (startMemberTimer st)).team.get?
      (tickN m m.timeLimit (startMemberTimer st)).idx = some m := by
    rw [hE]; exact hm
  have hbE : (tickN m m.timeLimit (startMemberTimer st)).buffer = [] := by
    rw [hE]; exact hb
  have hfbE : (tickN m m.timeLimit (startMemberTimer st)).finalBuffer = [] := by
    rw [hE]; exact hfb
  have htlE : (tickN m m.timeLimit (startMemberTimer st)).timeLimitReached = true := by
    rw [hE]
  have hqE : qaLookup (tickN m m.timeLimit (startMemberTimer st)).qaMap m.id = some q0 := by
    rw [hE]; exact hq0
  have hcbE : combinedBuf (tickN m m.timeLimit (startMemberTimer st)) = [] :=
    combinedBuf_empty _ hbE hfbE
  obtain ⟨w1, w2⟩ :=
    finalize_empty_tl (tickN m m.timeLimit (startMemberTimer st)) ts m q0 hmE hcbE htlE hqE
  refine ⟨?_, htlE, by rw [hE], by rw [hE], w1, w2⟩
  intro k hk
  have h := tickN_start_fields st m hlim k (Nat.le_of_lt hk)
  have ek : decide (k = m.timeLimit) = false := by
    rw [decide_eq_false_iff_not]; omega
  rw [h, ek]

/-- Witness for `armed_timer_force_finalize` on the concrete roster
`teamA` (time limit 2s). -/
theorem armed_timer_force_finalize_witness :
    (1 ≤ mA.timeLimit) ∧ (stSilent.buffer = []) ∧
    (tickN mA mA.timeLimit (startMemberTimer stSilent)).timeLimitReached = true ∧
    mA.id ∈ ((handleAnswerFinalize (tickN mA mA.timeLimit (startMemberTimer stSilent))
      (str "t")).1).completedMembers :=
  ⟨by decide, by decide,
   (armed_timer_force_finalize stSilent mA (str "t") ⟨[], [], 0⟩ (by decide) (by decide)
      (by decide) (by decide) (by decide)).2.1,
   (armed_timer_force_finalize stSilent mA (str "t") ⟨[], [], 0⟩ (by decide) (by decide)
      (by decide) (by decide) (by decide)).2.2.2.2.2⟩


lemma askStep_fst_adv (s : St) (i : Nat)
    (h : nextUncompleted s.completedMembers s.team = some i) :
    ((askStep s).1).idx = i ∧ ((askStep s).1).active = s.active := by
  unfold askStep
  rw [h]
  simp [resetTimerState]

lemma askStep_fst_none (s : St)
    (h : nextUncompleted s.completedMembers s.team = none) :
    ((askStep s).1).active = false := by
  unfold askStep
  rw [h]
  simp [completeMeeting, resetTimerState]

lemma moveToNext_fst_adv (s : St) (id : Str) (i : Nat)
    (h : nextUncompleted (setInsert s.completedMembers id) s.team = some i) :
    ((moveToNextPerson s id).1).idx = i ∧
    ((moveToNextPerson s id).1).active = s.active := by
  unfold moveToNextPerson
  dsimp only
  rw [h]
  exact ⟨(askStep_fst_adv _ i h).1, (askStep_fst_adv _ i h).2⟩

lemma moveToNext_fst_none (s : St) (id : Str)
    (h : nextUncompleted (setInsert s.completedMembers id) s.team = none) :
    ((moveToNextPerson s id).1).active = false := by
  unfold moveToNextPerson
  dsimp only
  rw [h]
  simp [completeMeeting, resetTimerState]

/-- C3: finalize with an empty combined buffer.  Without time-limit
cause: the controller speaks only the clarification prompt and returns
— records, completed set, index and activity are unchanged.  With the
time limit reached: the sentinel answer is recorded as the member's
update, the member is marked complete, and the turn advances normally
(next uncompleted member, or meeting completion when none is left). -/
theorem finalize_empty_buffer (st : St) (ts : Str) (m : Member)
    (hm : st.team.get? st.idx = some m)
    (he : combinedBuf st = []) :
    (st.timeLimitReached = false →
      (handleAnswerFinalize st ts).2 = [clarifyPrompt] ∧
      ((handleAnswerFinalize st ts).1).qaMap = st.qaMap ∧
      ((handleAnswerFinalize st ts).1).completedMembers = st.completedMembers ∧
      ((handleAnswerFinalize st ts).1).idx = st.idx ∧
      ((handleAnswerFinalize st ts).1).active = st.active) ∧
    (st.timeLimitReached = true →
      ∀ q0, qaLookup st.qaMap m.id = some q0 →
        ((qaLookup ((handleAnswerFinalize st ts).1).qaMap m.id).map QA.update
            = some sentinelAnswer) ∧
        m.id ∈ ((handleAnswerFinalize st ts).1).completedMembers ∧
        ((handleAnswerFinalize st ts).1).completedMembers
            = setInsert st.completedMembers m.id ∧
        (∀ i, nextUncompleted (setInsert st.completedMembers m.id) st.team = some i →
          ((handleAnswerFinalize st ts).1).idx = i ∧
          ((handleAnswerFinalize st ts).1).active = st.active) ∧
        (nextUncompleted (setInsert st.completedMembers m.id) st.team = none →
          ((handleAnswerFinalize st ts).1).active = false)) := by
  constructor
  · intro htl
    rw [finalize_clarify_eq st ts m hm he htl]
    exact ⟨rfl, rfl, rfl, rfl, rfl⟩
  · intro htl q0 hq0
    obtain ⟨w1, w2⟩ := finalize_empty_tl st ts m q0 hm he htl hq0
    have hp : ¬(combinedBuf st = [] ∧ st.timeLimitReached = false) := by
      intro hx
      rw [htl] at hx
      cases hx.2
    refine ⟨w1, w2, ?_, ?_, ?_⟩
    · rw [finalize_proceed_fst st ts m hm hp, moveToNext_fst_completed,
        finalizeRecord_completed]
    · intro i hi
      rw [finalize_proceed_fst st ts m hm hp]
      exact moveToNext_fst_adv _ m.id i hi
    · intro hnone
      rw [finalize_proceed_fst st ts m hm hp]
      exact moveToNext_fst_none _ m.id hnone

/-- Witness for `finalize_empty_buffer`: both branches at concrete
states (fresh turn without time limit; expired turn with it). -/
theorem finalize_empty_buffer_witness :
    (combinedBuf stSilent = []) ∧
    (handleAnswerFinalize stSilent (str "t")).2 = [clarifyPrompt] ∧
    ((qaLookup ((handleAnswerFinalize { stSilent with timeLimitReached := true }
        (str "t")).1).qaMap mA.id).map QA.update = some sentinelAnswer) ∧
    mA.id ∈ ((handleAnswerFinalize { stSilent with timeLimitReached := true }
        (str "t")).1).completedMembers :=
  ⟨by decide,
   ((finalize_empty_buffer stSilent (str "t") mA (by decide) (by decide)).1 (by decide)).1,
   (((finalize_empty_buffer { stSilent with timeLimitReached := true } (str "t") mA
      (by decide) (by decide)).2 (by decide)) ⟨[], [], 0⟩ (by decide)).1,
   (((finalize_empty_buffer { stSilent with timeLimitReached := true } (str "t") mA
      (by decide) (by decide)).2 (by decide)) ⟨[], [], 0⟩ (by decide)).2.1⟩


lemma dropTrailingWS_append_space (l : Str) :
    dropTrailingWS (l ++ [' ']) = dropTrailingWS l := by
  have hws : jsWhitespace ' ' = true := by decide
  simp [dropTrailingWS, List.dropWhile, hws]

lemma trimChars_append_space (l : Str) :
    trimChars (l ++ [' ']) = trimChars l := by
  induction l with
  | nil => rfl
  | cons a l ih =>
    by_cases h : jsWhitespace a = true
    · simpa [trimChars, List.dropWhile, h] using ih
    · have h1 : trimChars (a :: l ++ [' ']) = dropTrailingWS ((a :: l) ++ [' ']) := by
        simp [trimChars, List.dropWhile, h]
      have h2 : trimChars (a :: l) = dropTrailingWS (a :: l) := by
        simp [trimChars, List.dropWhile, h]
      rw [h1, h2, dropTrailingWS_append_space]

@[simp] lemma turnState_team (team : List Member) (k : Nat) (qa : List (Str × QA)) :
    (turnState team k qa).team = team := rfl

@[simp] lemma turnState_active (team : List Member) (k : Nat) (qa : List (Str × QA)) :
    (turnState team k qa).active = true := rfl

@[simp] lemma turnState_idx (team : List Member) (k : Nat) (qa : List (Str × QA)) :
    (turnState team k qa).idx = k := rfl

@[simp] lemma turnState_completed (team : List Member) (k : Nat) (qa : List (Str × QA)) :
    (turnState team k qa).completedMembers = (team.take k).map Member.id := rfl

@[simp] lemma turnState_qaMap (team : List Member) (k : Nat) (qa : List (Str × QA)) :
    (turnState team k qa).qaMap = qa := rfl

@[simp] lemma finalizeRecord_team (s : St) (m : Member) (ts : Str) :
    (finalizeRecord s m ts).team = s.team := rfl

@[simp] lemma finalizeRecord_active (s : St) (m : Member) (ts : Str) :
    (finalizeRecord s m ts).active = s.active := rfl

@[simp] lemma finalizeRecord_idx (s : St) (m : Member) (ts : Str) :
    (finalizeRecord s m ts).idx = s.idx := rfl

@[simp] lemma finalizeRecord_buffer (s : St) (m : Member) (ts : Str) :
    (finalizeRecord s m ts).buffer = s.buffer := rfl

@[simp] lemma finalizeRecord_finalBuffer (s : St) (m : Member) (ts : Str) :
    (finalizeRecord s m ts).finalBuffer = s.finalBuffer := rfl

lemma setInsert_of_not_mem (l : List Str) (x : Str) (h : x ∉ l) :
    setInsert l x = l ++ [x] := by
  simp [setInsert, h]

lemma mem_of_get? : ∀ (l : List Member) (k : Nat) (m : Member),
    l.get? k = some m → m ∈ l := by
  intro l
  induction l with
  | nil => intro k m h; cases h
  | cons a rest ih =>
    intro k m h
    cases k with
    | zero =>
      cases h
      exact List.mem_cons_self a rest
    | succ k => exact List.mem_cons_of_mem a (ih k m h)

lemma take_succ_of_get? : ∀ (l : List Member) (k : Nat) (m : Member),
    l.get? k = some m → l.take (k + 1) = l.take k ++ [m] := by
  intro l
  induction l with
  | nil => intro k m h; cases h
  | cons a rest ih =>
    intro k m h
    cases k with
    | zero =>
      cases h
      rfl
    | succ k =>
      have := ih k m h
      simp [List.take_succ_cons, this]

lemma nodup_take_not_mem : ∀ (l : List Member) (k : Nat) (m : Member),
    (l.map Member.id).Nodup → l.get? k = some m →
    m.id ∉ (l.take k).map Member.id := by
  intro l
  induction l with
  | nil => intro k m _ h; cases h
  | cons a rest ih =>
    intro k m hnd h
    have hna : a.id ∉ rest.map Member.id := by
      simp only [List.map_cons, List.nodup_cons] at hnd
      exact hnd.1
    have hnd' : (rest.map Member.id).Nodup := by
      simp only [List.map_cons, List.nodup_cons] at hnd
      exact hnd.2
    cases k with
    | zero => simp
    | succ k =>
      have hmem : m ∈ rest := mem_of_get? rest k m h
      have hne : m.id ≠ a.id := by
        intro he
        apply hna
        rw [← he]
        exact List.mem_map_of_mem Member.id hmem
      simp only [List.take_succ_cons, List.map_cons, List.mem_cons]
      push_neg
      exact ⟨hne, ih k m hnd' h⟩

lemma nextUncompleted_mem_congr : ∀ (l : List Member) (c₁ c₂ : List Str),
    (∀ m ∈ l, (m.id ∈ c₁ ↔ m.id ∈ c₂)) →
    nextUncompleted c₁ l = nextUncompleted c₂ l := by
  intro l
  induction l with
  | nil => intro _ _ _; rfl
  | cons a l ih =>
    intro c₁ c₂ h
    have ha := h a (List.mem_cons_self a l)
    have hrest := ih c₁ c₂ (fun m hm => h m (List.mem_cons_of_mem a hm))
    by_cases h1 : a.id ∈ c₁
    · have h2 : a.id ∈ c₂ := ha.mp h1
      simp [nextUncompleted, h1, h2, hrest]
    · have h2 : a.id ∉ c₂ := fun hx => h1 (ha.mpr hx)
      simp [nextUncompleted, h1, h2]

lemma nextUncompleted_take : ∀ (team : List Member),
    (team.map Member.id).Nodup → ∀ j,
    nextUncompleted ((team.take j).map Member.id) team =
      if j < team.length then some j else none := by
  intro team
  induction team with
  | nil => intro _ j; simp [nextUncompleted]
  | cons a rest ih =>
    intro hnd j
    have hna : a.id ∉ rest.map Member.id := by
      simp only [List.map_cons, List.nodup_cons] at hnd
      exact hnd.1
    have hnd' : (rest.map Member.id).Nodup := by
      simp only [List.map_cons, List.nodup_cons] at hnd
      exact hnd.2
    cases j with
    | zero => simp [nextUncompleted]
    | succ j =>
      have hcongr : nextUncompleted (a.id :: (rest.take j).map Member.id) rest
          = nextUncompleted ((rest.take j).map Member.id) rest := by
        apply nextUncompleted_mem_congr
        intro m hm
        have hmne : m.id ≠ a.id := by
          intro he
          apply hna
          rw [← he]
          exact List.mem_map_of_mem Member.id hm
        simp [hmne]
      have hmem : a.id ∈ a.id :: (rest.take j).map Member.id :=
        List.mem_cons_self _ _
      simp only [List.take_succ_cons, List.map_cons, nextUncompleted, if_pos hmem,
        hcongr, ih hnd' j]
      by_cases hj : j < rest.length
      · simp [hj, Nat.succ_lt_succ hj]
      · have : ¬(j + 1 < rest.length + 1) := by omega
        simp [hj, this]

lemma nextUncompleted_some_spec : ∀ (l : List Member) (c : List Str) (i : Nat),
    nextUncompleted c l = some i →
    (∀ m, l.get? i = some m → m.id ∉ c) ∧
    (∀ j m, j < i → l.get? j = some m → m.id ∈ c) := by
  intro l
  induction l with
  | nil => intro c i h; cases h
  | cons a rest ih =>
    intro c i h
    by_cases ha : a.id ∈ c
    · simp only [nextUncompleted, if_pos ha] at h
      rcases hx : nextUncompleted c rest with _ | i'
      · rw [hx] at h; cases h
      · rw [hx] at h
        simp only [Option.map_some'] at h
        cases h
        obtain ⟨p1, p2⟩ := ih c i' hx
        constructor
        · intro m hm
          exact p1 m hm
        · intro j m hj hm
          cases j with
          | zero =>
            cases hm
            exact ha
          | succ j => exact p2 j m (by omega) hm
    · simp only [nextUncompleted, if_neg ha] at h
      cases h
      constructor
      · intro m hm
        cases hm
        exact ha
      · intro j m hj _
        omega


lemma str_space : str " " = [' '] := rfl

lemma combinedBuf_manual (s : St) (txt : Str) :
    combinedBuf { s with finalBuffer := txt, buffer := [] } = trimChars txt := by
  show trimChars (txt ++ str " " ++ []) = trimChars txt
  rw [List.append_nil, str_space]
  exact trimChars_append_space txt

lemma manualTurn_step_mid (team : List Member) (hnd : (team.map Member.id).Nodup)
    (k : Nat) (m : Member) (hk : team.get? k = some m)
    (qa : List (Str × QA)) (txt ts : Str) (htxt : trimChars txt ≠ [])
    (hlt : k + 1 < team.length) :
    ∃ qa', manualTurn ts txt (turnState team k qa) = turnState team (k + 1) qa' := by
  have hm0 : ({ turnState team k qa with finalBuffer := txt, buffer := [] } : St).team.get? ({ turnState team k qa with finalBuffer := txt, buffer := [] } : St).idx = some m := hk
  have hcb : combinedBuf ({ turnState team k qa with finalBuffer := txt, buffer := [] } : St) = trimChars txt := combinedBuf_manual _ txt
  have hp : ¬(combinedBuf ({ turnState team k qa with finalBuffer := txt, buffer := [] } : St) = [] ∧ ({ turnState team k qa with finalBuffer := txt, buffer := [] } : St).timeLimitReached = false) := by
    rw [hcb]
    exact fun hx => htxt hx.1
  have hins : setInsert ((team.take k).map Member.id) m.id = (team.take (k + 1)).map Member.id := by
    rw [setInsert_of_not_mem _ _ (nodup_take_not_mem team k m hnd hk), take_succ_of_get? team k m hk]
    simp
  have hnext : nextUncompleted ((team.take (k + 1)).map Member.id) team = some (k + 1) := by
    rw [nextUncompleted_take team hnd (k + 1), if_pos hlt]
  have hstep : (handleAnswerFinalize { turnState team k qa with finalBuffer := txt, buffer := [] } ts).1 = turnState team (k + 1) ((finalizeRecord { ({ turnState team k qa with finalBuffer := txt, buffer := [] } : St) with timerRunning := false } m ts).qaMap) := by
    rw [finalize_proceed_fst _ ts m hm0 hp]
    simp only [moveToNextPerson, askStep, finalizeRecord_completed, finalizeRecord_team, finalizeRecord_active, finalizeRecord_idx, turnState_completed, turnState_team, turnState_active, hins, hnext, resetTimerState, turnState]
  exact ⟨_, hstep⟩

lemma manualTurn_step_last (team : List Member) (hnd : (team.map Member.id).Nodup)
    (k : Nat) (m : Member) (hk : team.get? k = some m)
    (qa : List (Str × QA)) (txt ts : Str) (htxt : trimChars txt ≠ [])
    (hlast : k + 1 = team.length) :
    (manualTurn ts txt (turnState team k qa)).active = false ∧
    (manualTurn ts txt (turnState team k qa)).completedMembers = team.map Member.id ∧
    (manualTurn ts txt (turnState team k qa)).team = team := by
  have hm0 : ({ turnState team k qa with finalBuffer := txt, buffer := [] } : St).team.get? ({ turnState team k qa with finalBuffer := txt, buffer := [] } : St).idx = some m := hk
  have hcb : combinedBuf ({ turnState team k qa with finalBuffer := txt, buffer := [] } : St) = trimChars txt := combinedBuf_manual _ txt
  have hp : ¬(combinedBuf ({ turnState team k qa with finalBuffer := txt, buffer := [] } : St) = [] ∧ ({ turnState team k qa with finalBuffer := txt, buffer := [] } : St).timeLimitReached = false) := by
    rw [hcb]
    exact fun hx => htxt hx.1
  have hins : setInsert ((team.take k).map Member.id) m.id = (team.take (k + 1)).map Member.id := by
    rw [setInsert_of_not_mem _ _ (nodup_take_not_mem team k m hnd hk), take_succ_of_get? team k m hk]
    simp
  have htake : (team.take (k + 1)).map Member.id = team.map Member.id := by
    rw [hlast, List.take_length]
  have hnext : nextUncompleted (team.map Member.id) team = none := by
    have h := nextUncompleted_take team hnd team.length
    rw [List.take_length] at h
    rw [h, if_neg (by omega)]
  have hshow := finalize_proceed_fst ({ turnState team k qa with finalBuffer := txt, buffer := [] } : St) ts m hm0 hp
  show (handleAnswerFinalize { turnState team k qa with finalBuffer := txt, buffer := [] } ts).1.active = false ∧ (handleAnswerFinalize { turnState team k qa with finalBuffer := txt, buffer := [] } ts).1.completedMembers = team.map Member.id ∧ (handleAnswerFinalize { turnState team k qa with finalBuffer := txt, buffer := [] } ts).1.team = team
  rw [hshow]
  simp only [moveToNextPerson, askStep, finalizeRecord_completed, finalizeRecord_team, finalizeRecord_active, finalizeRecord_idx, turnState_completed, turnState_team, turnState_active, hins, htake, hnext, completeMeeting, resetTimerState]
  exact ⟨trivial, trivial, trivial⟩


lemma runTurns_completes (team : List Member) (hnd : (team.map Member.id).Nodup) (ts : Str) :
    ∀ (answers : List Str) (k : Nat) (qa : List (Str × QA)),
      k < team.length → k + answers.length = team.length →
      (∀ a ∈ answers, trimChars a ≠ []) →
      (runTurns ts answers (turnState team k qa)).active = false ∧
      (runTurns ts answers (turnState team k qa)).completedMembers = team.map Member.id := by
  intro answers
  induction answers with
  | nil =>
    intro k qa hk hlen _
    exfalso
    simp at hlen
    omega
  | cons a rest ih =>
    intro k qa hk hlen hne
    obtain ⟨m, hm⟩ : ∃ m, team.get? k = some m := by
      cases hx : team.get? k with
      | none =>
        rw [List.get?_eq_none] at hx
        omega
      | some m => exact ⟨m, rfl⟩
    have ha : trimChars a ≠ [] := hne a (List.mem_cons_self _ _)
    have hne' : ∀ x ∈ rest, trimChars x ≠ [] :=
      fun x hx => hne x (List.mem_cons_of_mem _ hx)
    by_cases hlt : k + 1 < team.length
    · obtain ⟨qa', hstep⟩ := manualTurn_step_mid team hnd k m hm qa a ts ha hlt
      have hrw : runTurns ts (a :: rest) (turnState team k qa)
          = runTurns ts rest (turnState team (k + 1) qa') := by
        show runTurns ts rest (manualTurn ts a (turnState team k qa)) = _
        rw [hstep]
      rw [hrw]
      refine ih (k + 1) qa' hlt ?_ hne'
      simp at hlen
      omega
    · have hlast : k + 1 = team.length := by omega
      have hrest : rest = [] := by
        have : rest.length = 0 := by
          simp at hlen
          omega
        exact List.length_eq_zero.mp this
      subst hrest
      have hfin := manualTurn_step_last team hnd k m hm qa a ts ha hlast
      exact ⟨hfin.1, hfin.2.1⟩

lemma runTurns_mid (team : List Member) (hnd : (team.map Member.id).Nodup) (ts : Str) :
    ∀ (answers : List Str) (k : Nat) (qa : List (Str × QA)),
      (∀ a ∈ answers, trimChars a ≠ []) →
      k + answers.length < team.length →
      ∃ qa', runTurns ts answers (turnState team k qa)
        = turnState team (k + answers.length) qa' := by
  intro answers
  induction answers with
  | nil =>
    intro k qa _ _
    exact ⟨qa, by simp [runTurns]⟩
  | cons a rest ih =>
    intro k qa hne hk
    have ha : trimChars a ≠ [] := hne a (List.mem_cons_self _ _)
    have hne' : ∀ x ∈ rest, trimChars x ≠ [] :=
      fun x hx => hne x (List.mem_cons_of_mem _ hx)
    have hlt : k + 1 < team.length := by
      simp at hk
      omega
    obtain ⟨m, hm⟩ : ∃ m, team.get? k = some m := by
      cases hx : team.get? k with
      | none =>
        rw [List.get?_eq_none] at hx
        omega
      | some m => exact ⟨m, rfl⟩
    obtain ⟨qa', hstep⟩ := manualTurn_step_mid team hnd k m hm qa a ts ha hlt
    have hk' : k + 1 + rest.length < team.length := by
      simp at hk
      omega
    obtain ⟨qa'', hmid⟩ := ih (k + 1) qa' hne' hk'
    refine ⟨qa'', ?_⟩
    have hrw : runTurns ts (a :: rest) (turnState team k qa)
        = runTurns ts rest (turnState team (k + 1) qa') := by
      show runTurns ts rest (manualTurn ts a (turnState team k qa)) = _
      rw [hstep]
    rw [hrw, hmid]
    have : k + 1 + rest.length = k + (a :: rest).length := by
      simp
      omega
    rw [this]

lemma completed_subset_finalize (s : St) (t : Str) :
    s.completedMembers ⊆ ((handleAnswerFinalize s t).1).completedMembers := by
  rcases hm : s.team.get? s.idx with _ | m
  · have hkind : (handleAnswerFinalize s t).1 = { s with timerRunning := false } := by
      unfold handleAnswerFinalize
      split
      · rfl
      · rename_i m heq
        rw [hm] at heq
        cases heq
    rw [hkind]
    exact fun x hx => hx
  · by_cases hcl : combinedBuf s = [] ∧ s.timeLimitReached = false
    · rw [finalize_clarify_eq s t m hm hcl.1 hcl.2]
      exact fun x hx => hx
    · rw [finalize_proceed_fst s t m hm hcl, moveToNext_fst_completed,
        finalizeRecord_completed]
      exact subset_setInsert _ _

lemma kickoffAsked_turnState (team : List Member) (qa0 : List (Str × QA))
    (hne : team ≠ []) :
    kickoffAsked (initialSt team qa0) = turnState team 0 qa0 := by
  obtain ⟨a, rest, rfl⟩ : ∃ a rest, team = a :: rest := by
    cases team with
    | nil => exact absurd rfl hne
    | cons a r => exact ⟨a, r, rfl⟩
  show (askStep (kickoff (initialSt (a :: rest) qa0))).1 = _
  have hnx : nextUncompleted ((kickoff (initialSt (a :: rest) qa0)).completedMembers)
      ((kickoff (initialSt (a :: rest) qa0)).team) = some 0 := by
    show nextUncompleted [] (a :: rest) = some 0
    simp [nextUncompleted]
  unfold askStep
  rw [hnx]
  simp [resetTimerState, kickoff, initialSt, turnState]

/-- C2: over a manual session started by kickoff, `completedMembers`
starts empty and only ever grows; advancing always selects the first
roster-order member not yet completed (every earlier member is already
completed, the selected one is not); and for a roster of N distinct
members where every answer is a non-empty manual finalize, the session
is Completed (inactive) after exactly N turns with `completedMembers`
equal to the whole roster in order — and still active after every
k < N turns. -/
theorem session_roundrobin (team : List Member) (answers : List Str) (ts : Str)
    (qa0 : List (Str × QA))
    (hnd : (team.map Member.id).Nodup)
    (hlen : answers.length = team.length)
    (hne : ∀ a ∈ answers, trimChars a ≠ []) :
    (runTurns ts answers (kickoffAsked (initialSt team qa0))).active = false ∧
    (runTurns ts answers (kickoffAsked (initialSt team qa0))).completedMembers
      = team.map Member.id ∧
    (kickoffAsked (initialSt team qa0)).completedMembers = [] ∧
    (∀ (s : St) (t : Str),
      s.completedMembers ⊆ ((handleAnswerFinalize s t).1).completedMembers) ∧
    (∀ s : St, ((askStep s).1).completedMembers = s.completedMembers) ∧
    (∀ (s : St) (i : Nat) (m : Member),
      nextUncompleted s.completedMembers s.team = some i →
      s.team.get? i = some m → m.id ∉ s.completedMembers) ∧
    (∀ (s : St) (i j : Nat) (m : Member),
      nextUncompleted s.completedMembers s.team = some i → j < i →
      s.team.get? j = some m → m.id ∈ s.completedMembers) ∧
    (∀ k, k < team.length →
      (runTurns ts (answers.take k) (kickoffAsked (initialSt team qa0))).active = true) := by
  have hmain : (runTurns ts answers (kickoffAsked (initialSt team qa0))).active = false ∧
      (runTurns ts answers (kickoffAsked (initialSt team qa0))).completedMembers
        = team.map Member.id := by
    cases team with
    | nil =>
      have hanil : answers = [] := List.length_eq_zero.mp (by simpa using hlen)
      subst hanil
      constructor <;>
        simp [runTurns, kickoffAsked, askStep, kickoff, initialSt, nextUncompleted,
          completeMeeting, resetTimerState]
    | cons a rest =>
      rw [kickoffAsked_turnState (a :: rest) qa0 (by simp)]
      exact runTurns_completes (a :: rest) hnd ts answers 0 qa0 (by simp)
        (by simpa using hlen) hne
  refine ⟨hmain.1, hmain.2, ?_, ?_, ?_, ?_, ?_, ?_⟩
  · show ((askStep (kickoff (initialSt team qa0))).1).completedMembers = []
    rw [askStep_fst_completed]
    rfl
  · exact completed_subset_finalize
  · exact askStep_fst_completed
  · intro s i m hi hm
    exact (nextUncompleted_some_spec s.team s.completedMembers i hi).1 m hm
  · intro s i j m hi hj hm
    exact (nextUncompleted_some_spec s.team s.completedMembers i hi).2 j m hj hm
  · intro k hk
    have hteamne : team ≠ [] := by
      cases team with
      | nil => simp at hk
      | cons a r => simp
    rw [kickoffAsked_turnState team qa0 hteamne]
    have hnetake : ∀ a ∈ answers.take k, trimChars a ≠ [] :=
      fun a ha => hne a (List.take_subset k answers ha)
    have hlentake : 0 + (answers.take k).length < team.length := by
      rw [List.length_take]
      omega
    obtain ⟨qa', hmid⟩ := runTurns_mid team hnd ts (answers.take k) 0 qa0 hnetake hlentake
    rw [hmid]
    rfl

/-- Witness for `session_roundrobin` on the two-member roster `teamW`
with two non-empty manual answers. -/
theorem session_roundrobin_witness :
    ((teamW.map Member.id).Nodup) ∧
    (runTurns (str "t") [str "hello", str "world"]
      (kickoffAsked (initialSt teamW (initQaMap teamW)))).active = false ∧
    (runTurns (str "t") [str "hello", str "world"]
      (kickoffAsked (initialSt teamW (initQaMap teamW)))).completedMembers
      = teamW.map Member.id :=
  ⟨by decide,
   (session_roundrobin teamW [str "hello", str "world"] (str "t") (initQaMap teamW)
      (by decide) (by decide) (by decide)).1,
   (session_roundrobin teamW [str "hello", str "world"] (str "t") (initQaMap teamW)
      (by decide) (by decide) (by decide)).2.1⟩

end VSM
